import Mathlib

/-!
Verification of the redstr transformation catalog and transform pipeline
against its natural-language specification.

The catalog operations (`crates/redstr/src/lib.rs`) are exposed to Python
through generated bindings; the core itself is modelled here from the
specification's per-operation algorithm contracts, over `List Char`
(code points) and `List Nat` (bytes).
-/

namespace Redstr

/-! ## Character-level helpers -/

theorem char_toNat_ofNat (n : Nat) (h : n < 55296) : (Char.ofNat n).toNat = n := by
  have hv : n.isValidChar := Or.inl (by omega)
  rw [Char.ofNat, dif_pos hv]
  rfl

theorem char_toNat_lt (c : Char) : c.toNat < 1114112 := by
  rcases c.valid with h | ⟨_, h2⟩
  · exact Nat.lt_trans h (by decide)
  · exact h2

theorem char_eq_of_toNat_eq {c d : Char} (h : c.toNat = d.toNat) : c = d := by
  rw [← Char.ofNat_toNat c, ← Char.ofNat_toNat d, h]

/-- Modelled from the spec: ASCII lower-casing on code points, the case model
used by the catalog's case operations (the core Rust implementation in
`crates/redstr/src/lib.rs` is not among the provided sources). -/
def lowerCode (n : Nat) : Nat :=
  if 65 ≤ n ∧ n ≤ 90 then n + 32 else n

theorem toNat_toLower (c : Char) : c.toLower.toNat = lowerCode c.toNat := by
  simp only [Char.toLower, lowerCode, ge_iff_le]
  by_cases h : 65 ≤ c.toNat ∧ c.toNat ≤ 90
  · rw [if_pos h, if_pos h]
    exact char_toNat_ofNat _ (by omega)
  · rw [if_neg h, if_neg h]

theorem toLower_toLower (c : Char) : c.toLower.toLower = c.toLower := by
  apply char_eq_of_toNat_eq
  rw [toNat_toLower, toNat_toLower]
  unfold lowerCode
  split_ifs <;> omega

/-! ## rot13 (obfuscation category) -/

/-- Modelled from the spec: Caesar shift by 13 over the 26-letter alphabet on
a single code point, case-preserving, non-alphabetic code points unchanged. -/
def rotCode (n : Nat) : Nat :=
  if 97 ≤ n ∧ n ≤ 122 then 97 + (n - 97 + 13) % 26
  else if 65 ≤ n ∧ n ≤ 90 then 65 + (n - 65 + 13) % 26
  else n

/-- Modelled from the spec: `rot13` applied to one character. -/
def rot13Char (c : Char) : Char := Char.ofNat (rotCode c.toNat)

/-- Modelled from the spec: `rot13` — Caesar shift by 13 over the 26-letter
alphabet, case-preserving, non-alphabetic characters unchanged. -/
def rot13 (s : String) : String := String.mk (s.data.map rot13Char)

theorem rotCode_rotCode (n : Nat) : rotCode (rotCode n) = n := by
  unfold rotCode
  split_ifs <;> omega

theorem toNat_rot13Char (c : Char) : (rot13Char c).toNat = rotCode c.toNat := by
  unfold rot13Char
  by_cases h1 : 97 ≤ c.toNat ∧ c.toNat ≤ 122
  · have : rotCode c.toNat = 97 + (c.toNat - 97 + 13) % 26 := by
      unfold rotCode; rw [if_pos h1]
    rw [this]
    exact char_toNat_ofNat _ (by omega)
  · by_cases h2 : 65 ≤ c.toNat ∧ c.toNat ≤ 90
    · have : rotCode c.toNat = 65 + (c.toNat - 65 + 13) % 26 := by
        unfold rotCode; rw [if_neg h1, if_pos h2]
      rw [this]
      exact char_toNat_ofNat _ (by omega)
    · have : rotCode c.toNat = c.toNat := by
        unfold rotCode; rw [if_neg h1, if_neg h2]
      rw [this, Char.ofNat_toNat]

theorem rot13Char_rot13Char (c : Char) : rot13Char (rot13Char c) = c := by
  calc rot13Char (rot13Char c)
      = Char.ofNat (rotCode ((rot13Char c).toNat)) := rfl
    _ = Char.ofNat (rotCode (rotCode c.toNat)) := by rw [toNat_rot13Char]
    _ = Char.ofNat c.toNat := by rw [rotCode_rotCode]
    _ = c := Char.ofNat_toNat c

/-! ## case_swap (case category) -/

/-- Modelled from the spec: invert the case of an alphabetic code point,
pass every non-alphabetic code point through unchanged. -/
def swapCode (n : Nat) : Nat :=
  if 65 ≤ n ∧ n ≤ 90 then n + 32
  else if 97 ≤ n ∧ n ≤ 122 then n - 32
  else n

/-- Modelled from the spec: `case_swap` applied to one character. -/
def swapChar (c : Char) : Char := Char.ofNat (swapCode c.toNat)

/-- Modelled from the spec: `case_swap` — invert the case of every alphabetic
code point; non-alphabetic code points pass through unchanged. -/
def case_swap (s : String) : String := String.mk (s.data.map swapChar)

/-- Modelled from the spec: the `to_lowercase` view used by the testable
property `case_swap(s).to_lowercase() == s.to_lowercase()`, on the ASCII
range the catalog's case operations act on. -/
def toLowerModel (s : String) : String := String.mk (s.data.map Char.toLower)

theorem toNat_swapChar (c : Char) : (swapChar c).toNat = swapCode c.toNat := by
  unfold swapChar
  by_cases h1 : 65 ≤ c.toNat ∧ c.toNat ≤ 90
  · have : swapCode c.toNat = c.toNat + 32 := by
      unfold swapCode; rw [if_pos h1]
    rw [this]
    exact char_toNat_ofNat _ (by omega)
  · by_cases h2 : 97 ≤ c.toNat ∧ c.toNat ≤ 122
    · have : swapCode c.toNat = c.toNat - 32 := by
        unfold swapCode; rw [if_neg h1, if_pos h2]
      rw [this]
      exact char_toNat_ofNat _ (by omega)
    · have : swapCode c.toNat = c.toNat := by
        unfold swapCode; rw [if_neg h1, if_neg h2]
      rw [this, Char.ofNat_toNat]

theorem toLower_swapChar (c : Char) : (swapChar c).toLower = c.toLower := by
  apply char_eq_of_toNat_eq
  rw [toNat_toLower, toNat_toLower, toNat_swapChar]
  unfold lowerCode swapCode
  split_ifs <;> omega

/-! ## leetspeak and reverse_string (obfuscation category) -/

/-- Modelled from the spec: the fixed leetspeak substitution table, applied
case-insensitively to one character; unmapped characters pass through.
The table entries are pinned by the repository documentation's example
`leetspeak("password") == "p@55w0rd"`. -/
def leetChar (c : Char) : Char :=
  if c.toLower = 'a' then '@'
  else if c.toLower = 'e' then '3'
  else if c.toLower = 'i' then '1'
  else if c.toLower = 'o' then '0'
  else if c.toLower = 's' then '5'
  else c

/-- Modelled from the spec: `leetspeak` — apply a fixed character substitution
table to every matching character, case-insensitively; unmapped characters
pass through. -/
def leetspeak (s : String) : String := String.mk (s.data.map leetChar)

/-- Modelled from the spec: `reverse_string` — exact reversal of the
code-point sequence. -/
def reverse_string (s : String) : String := String.mk s.data.reverse

/-! ## UTF-8 byte model -/

/-- Modelled from the spec: the standard UTF-8 encoding of one Unicode scalar
value, used by the byte-oriented encodings (`base64_encode`, `hex_encode`). -/
def utf8Bytes (c : Char) : List Nat :=
  let n := c.toNat
  if n < 128 then [n]
  else if n < 2048 then [192 + n / 64, 128 + n % 64]
  else if n < 65536 then [224 + n / 4096, 128 + n / 64 % 64, 128 + n % 64]
  else [240 + n / 262144, 128 + n / 4096 % 64, 128 + n / 64 % 64, 128 + n % 64]

/-- Modelled from the spec: the UTF-8 byte sequence of a string. -/
def strBytes (s : String) : List Nat := s.data.flatMap utf8Bytes

theorem utf8Bytes_lt (c : Char) : ∀ b ∈ utf8Bytes c, b < 256 := by
  intro b hb
  have hc : c.toNat < 1114112 := char_toNat_lt c
  simp only [utf8Bytes] at hb
  split_ifs at hb <;> simp at hb <;> omega

theorem strBytes_lt (s : String) : ∀ b ∈ strBytes s, b < 256 := by
  intro b hb
  unfold strBytes at hb
  rw [List.mem_flatMap] at hb
  obtain ⟨c, _, hbc⟩ := hb
  exact utf8Bytes_lt c b hbc

/-! ## hex_encode (encoding category) -/

/-- Modelled from the spec: a lowercase hexadecimal digit (value below 16). -/
def hexDigitLower (n : Nat) : Char :=
  if n < 10 then Char.ofNat (48 + n) else Char.ofNat (87 + n)

/-- Modelled from the spec: `hex_encode` — lowercase hexadecimal encoding of
the UTF-8 bytes of the input, two hex digits per byte (the catalog table does
not document this operation; modelled from the repository's test
`hex_encode("hi") == "6869"` and the standard hex algorithm). -/
def hex_encode (s : String) : String :=
  String.mk ((strBytes s).flatMap (fun b => [hexDigitLower (b / 16), hexDigitLower (b % 16)]))

theorem hexDigitLower_mem (n : Nat) (h : n < 16) :
    hexDigitLower n ∈ "0123456789abcdef".data := by
  interval_cases n <;> decide

/-! ## url_encode (encoding category) -/

/-- Modelled from the spec: membership in the unreserved set
`A-Za-z0-9-_.~` that `url_encode` leaves unchanged. -/
def unreservedChar (c : Char) : Bool :=
  c.isAlphanum || c == '-' || c == '_' || c == '.' || c == '~'

/-- Modelled from the spec: an uppercase hexadecimal digit (value below 16). -/
def hexDigitUpper (n : Nat) : Char :=
  if n < 10 then Char.ofNat (48 + n) else Char.ofNat (55 + n)

/-- Modelled from the spec: the percent-encoding `%XX` of one byte. -/
def pctByte (b : Nat) : List Char :=
  ['%', hexDigitUpper (b / 16), hexDigitUpper (b % 16)]

/-- Modelled from the spec: `url_encode` applied to one character —
unreserved characters pass through, every other character is
percent-encoded byte by byte over its UTF-8 encoding. -/
def urlEncodeChar (c : Char) : List Char :=
  if unreservedChar c then [c] else (utf8Bytes c).flatMap pctByte

/-- Modelled from the spec: `url_encode` — percent-encode all characters
outside the unreserved set `A-Za-z0-9-_.~`; space encodes to `%20`. -/
def url_encode (s : String) : String := String.mk (s.data.flatMap urlEncodeChar)

theorem flatMap_unreserved (l : List Char) (h : ∀ c ∈ l, unreservedChar c = true) :
    l.flatMap urlEncodeChar = l := by
  induction l with
  | nil => rfl
  | cons c cs ih =>
    rw [List.flatMap_cons, ih (fun d hd => h d (List.mem_cons_of_mem c hd))]
    have hc : unreservedChar c = true := h c (List.mem_cons_self c cs)
    simp [urlEncodeChar, hc]

/-! ## base64_encode (encoding category) -/

/-- Modelled from the spec: the RFC 4648 Base64 alphabet. -/
def b64Alphabet : List Char :=
  "ABCDEFGHIJKLMNOPQRSTUVWXYZabcdefghijklmnopqrstuvwxyz0123456789+/".data

/-- Modelled from the spec: the RFC 4648 alphabet character of a sextet. -/
def b64Char (n : Nat) : Char := b64Alphabet.getD n '='

/-- Modelled from the spec: the sextet value of an RFC 4648 alphabet
character, used by the standard decoder the spec measures round trips
against. -/
def b64Val (c : Char) : Option Nat :=
  (List.range 64).find? (fun n => b64Char n = c)

/-- Modelled from the spec: standard Base64 encoding of a byte sequence with
`=` padding over the RFC 4648 alphabet. -/
def b64EncodeBytes : List Nat → List Char
  | [] => []
  | [a] => [b64Char (a / 4), b64Char (a % 4 * 16), '=', '=']
  | [a, b] => [b64Char (a / 4), b64Char (a % 4 * 16 + b / 16), b64Char (b % 16 * 4), '=']
  | a :: b :: c :: rest =>
    b64Char (a / 4) :: b64Char (a % 4 * 16 + b / 16) :: b64Char (b % 16 * 4 + c / 64) ::
      b64Char (c % 64) :: b64EncodeBytes rest

/-- Modelled from the spec: `base64_encode` — standard Base64 with `=`
padding, RFC 4648 alphabet, byte-exact on UTF-8 encoded input. -/
def base64_encode (s : String) : String := String.mk (b64EncodeBytes (strBytes s))

/-- Modelled from the spec: a standard RFC 4648 Base64 decoder (an external
collaborator in the spec, used only to state the byte-exact round-trip
property `base64_decode(base64_encode(s)) == s`). -/
def b64DecodeChars : List Char → Option (List Nat)
  | [] => some []
  | w :: x :: y :: z :: rest =>
    match b64Val w, b64Val x with
    | some a, some b =>
      if y = '=' then
        if z = '=' ∧ rest = [] then some [a * 4 + b / 16] else none
      else
        match b64Val y with
        | some c =>
          if z = '=' then
            if rest = [] then some [a * 4 + b / 16, b % 16 * 16 + c / 4] else none
          else
            match b64Val z with
            | some d =>
              (b64DecodeChars rest).map
                (fun bs => (a * 4 + b / 16) :: (b % 16 * 16 + c / 4) :: (c % 4 * 64 + d) :: bs)
            | none => none
        | none => none
    | _, _ => none
  | _ => none

theorem b64Val_b64Char (n : Nat) (h : n < 64) : b64Val (b64Char n) = some n := by
  interval_cases n <;> rfl

theorem b64Char_ne_pad (n : Nat) (h : n < 64) : b64Char n ≠ '=' := by
  interval_cases n <;> decide

theorem b64_roundtrip : ∀ bs : List Nat, (∀ b ∈ bs, b < 256) →
    b64DecodeChars (b64EncodeBytes bs) = some bs := by
  intro bs
  induction bs using b64EncodeBytes.induct with
  | case1 =>
    intro _
    simp [b64EncodeBytes, b64DecodeChars]
  | case2 a =>
    intro h
    have ha : a < 256 := h a (by simp)
    have h1 := b64Val_b64Char (a / 4) (by omega)
    have h2 := b64Val_b64Char (a % 4 * 16) (by omega)
    simp [b64EncodeBytes, b64DecodeChars, h1, h2]
    omega
  | case3 a b =>
    intro h
    have ha : a < 256 := h a (by simp)
    have hb : b < 256 := h b (by simp)
    have h1 := b64Val_b64Char (a / 4) (by omega)
    have h2 := b64Val_b64Char (a % 4 * 16 + b / 16) (by omega)
    have h3 := b64Val_b64Char (b % 16 * 4) (by omega)
    have hy := b64Char_ne_pad (b % 16 * 4) (by omega)
    simp [b64EncodeBytes, b64DecodeChars, h1, h2, h3, hy]
    omega
  | case4 a b c rest ih =>
    intro h
    have ha : a < 256 := h a (by simp)
    have hb : b < 256 := h b (by simp)
    have hc : c < 256 := h c (by simp)
    have hrest : ∀ x ∈ rest, x < 256 := fun x hx => h x (by simp [hx])
    have h1 := b64Val_b64Char (a / 4) (by omega)
    have h2 := b64Val_b64Char (a % 4 * 16 + b / 16) (by omega)
    have h3 := b64Val_b64Char (b % 16 * 4 + c / 64) (by omega)
    have h4 := b64Val_b64Char (c % 64) (by omega)
    have hy := b64Char_ne_pad (b % 16 * 4 + c / 64) (by omega)
    have hz := b64Char_ne_pad (c % 64) (by omega)
    simp [b64EncodeBytes, b64DecodeChars, h1, h2, h3, h4, hy, hz, ih hrest]
    omega

/-! ## jwt transforms (web security category) -/

/-- Modelled from the spec: split a character sequence on `.` delimiters
(the three-part dot-delimited token structure the `jwt_*` operations use). -/
def splitOnDot : List Char → List (List Char)
  | [] => [[]]
  | c :: rest =>
    if c = '.' then [] :: splitOnDot rest
    else
      match splitOnDot rest with
      | [] => [[c]]
      | p :: ps => (c :: p) :: ps

/-- Modelled from the spec: the alteration of the header segment; the exact
alteration is left open by the spec ("decode/alter the targeted segment",
design-note open question), modelled as a case swap of the segment. -/
def alterHeaderModel (h : List Char) : List Char := h.map swapChar

/-- Modelled from the spec: the alteration of the payload segment; the exact
obfuscation is left open by the spec, modelled as a reversal of the
segment. -/
def alterPayloadModel (p : List Char) : List Char := p.reverse

/-- Modelled from the spec: `jwt_header_manipulation` — operate on a
three-part dot-delimited token; split on `.`, alter the header segment
independently, leave the other segments untouched, and re-join with `.`;
on an input that violates the structural precondition return the original
input unchanged. -/
def jwt_header_manipulation (s : String) : String :=
  match splitOnDot s.data with
  | [h, p, g] => String.mk (alterHeaderModel h ++ '.' :: p ++ '.' :: g)
  | _ => s

/-- Modelled from the spec: `jwt_payload_obfuscate` — operate on a three-part
dot-delimited token; split on `.`, alter the payload segment independently,
leave the other segments untouched, and re-join with `.`; on an input that
violates the structural precondition return the original input unchanged. -/
def jwt_payload_obfuscate (s : String) : String :=
  match splitOnDot s.data with
  | [h, p, g] => String.mk (h ++ '.' :: alterPayloadModel p ++ '.' :: g)
  | _ => s

theorem splitOnDot_length : ∀ l : List Char, (splitOnDot l).length = l.count '.' + 1 := by
  intro l
  induction l with
  | nil => rfl
  | cons c rest ih =>
    by_cases hc : c = '.'
    · simp [splitOnDot, hc, List.count_cons, ih]
    · rcases hsp : splitOnDot rest with _ | ⟨p, ps⟩
      · rw [hsp] at ih
        simp at ih
      · rw [hsp] at ih
        simp [splitOnDot, hc, hsp, List.count_cons]
        simp at ih
        omega

theorem splitOnDot_no_dot : ∀ l : List Char, '.' ∉ l → splitOnDot l = [l] := by
  intro l
  induction l with
  | nil => intro _; rfl
  | cons c rest ih =>
    intro h
    have hc : c ≠ '.' := fun e => h (e ▸ List.mem_cons_self c rest)
    have hrest : '.' ∉ rest := fun e => h (List.mem_cons_of_mem c e)
    simp [splitOnDot, hc, ih hrest]

theorem splitOnDot_append : ∀ (h t : List Char), '.' ∉ h →
    splitOnDot (h ++ '.' :: t) = h :: splitOnDot t := by
  intro h t
  induction h with
  | nil => intro _; simp [splitOnDot]
  | cons c rest ih =>
    intro hd
    have hc : c ≠ '.' := fun e => hd (e ▸ List.mem_cons_self c rest)
    have hrest : '.' ∉ rest := fun e => hd (List.mem_cons_of_mem c e)
    simp only [List.cons_append, splitOnDot, if_neg hc, List.append_eq, ih hrest]

/-! ## Transformation catalog and transform pipeline -/

/-- Modelled from the spec: the names of the modelled `Pure` `Unary`
transforms of the catalog (a closed enumeration of transform identifiers,
as the spec's design notes prescribe). -/
inductive Transform where
  | case_swap
  | base64_encode
  | url_encode
  | hex_encode
  | leetspeak
  | rot13
  | reverse_string
  | jwt_header_manipulation
  | jwt_payload_obfuscate
deriving DecidableEq

/-- Modelled from the spec: resolve a transform name to its catalog
callable. -/
def interp : Transform → String → String
  | .case_swap => case_swap
  | .base64_encode => base64_encode
  | .url_encode => url_encode
  | .hex_encode => hex_encode
  | .leetspeak => leetspeak
  | .rot13 => rot13
  | .reverse_string => reverse_string
  | .jwt_header_manipulation => jwt_header_manipulation
  | .jwt_payload_obfuscate => jwt_payload_obfuscate

/-- Modelled from the spec: the transform pipeline (builder) — owns the
original input string and the ordered, append-only sequence of applied
transform names, together with the current value. -/
structure TransformBuilder where
  input : String
  steps : List Transform
  current : String

/-- Modelled from the spec: `construct(initial)` — captures the original
input; no transformation applied yet; current value equals initial value. -/
def TransformBuilder.construct (s : String) : TransformBuilder :=
  { input := s, steps := [], current := s }

/-- Modelled from the spec: `apply(name)` — looks up the named transform in
the catalog, applies it to the current value, replaces the current value
with the result, records the step, and returns the pipeline handle. -/
def TransformBuilder.apply (b : TransformBuilder) (t : Transform) : TransformBuilder :=
  { input := b.input, steps := b.steps ++ [t], current := interp t b.current }

/-- Modelled from the spec: `build()` — returns the current value. -/
def TransformBuilder.build (b : TransformBuilder) : String := b.current

theorem current_foldl_apply (ts : List Transform) :
    ∀ b : TransformBuilder,
      (List.foldl TransformBuilder.apply b ts).current =
        List.foldl (fun v t => interp t v) b.current ts := by
  induction ts with
  | nil => intro b; rfl
  | cons t ts ih =>
    intro b
    rw [List.foldl_cons, List.foldl_cons, ih]
    rfl

theorem steps_foldl_apply (ts : List Transform) :
    ∀ b : TransformBuilder,
      (List.foldl TransformBuilder.apply b ts).steps = b.steps ++ ts := by
  induction ts with
  | nil => intro b; simp
  | cons t ts ih =>
    intro b
    rw [List.foldl_cons, ih]
    simp [TransformBuilder.apply]

/-! ## Claim theorems -/

theorem string_eq_of_data_eq {x y : String} (h : x.data = y.data) : x = y := by
  cases x
  cases y
  exact congrArg String.mk h

/-- Claim C1: for every input string and every sequence of Pure transform
names, constructing a pipeline, applying the transforms in that order and
calling build returns the left-to-right composition of the catalog functions
in call order, the recorded step sequence exactly mirrors call order, and in
particular building "hello" through rot13 then reverse_string yields
"byyru". -/
theorem claim1_pipeline_sequential_application :
    (∀ (s : String) (ts : List Transform),
        (List.foldl TransformBuilder.apply (TransformBuilder.construct s) ts).build =
          List.foldl (fun v t => interp t v) s ts) ∧
    (∀ (s : String) (ts : List Transform),
        (List.foldl TransformBuilder.apply (TransformBuilder.construct s) ts).steps = ts) ∧
    TransformBuilder.build (TransformBuilder.apply (TransformBuilder.apply
      (TransformBuilder.construct "hello") Transform.rot13) Transform.reverse_string) =
      "byyru" := by
  refine ⟨?_, ?_, by decide⟩
  · intro s ts
    exact current_foldl_apply ts (TransformBuilder.construct s)
  · intro s ts
    simpa using steps_foldl_apply ts (TransformBuilder.construct s)

/-- Claim C2: rot13 is an involution; it Caesar-shifts the 26 letters by 13
case-preservingly and leaves every non-alphabetic code point unchanged. -/
theorem claim2_rot13_involution :
    (∀ s : String, rot13 (rot13 s) = s) ∧
    (∀ c : Char, 97 ≤ c.toNat ∧ c.toNat ≤ 122 →
        (rot13Char c).toNat = 97 + (c.toNat - 97 + 13) % 26) ∧
    (∀ c : Char, 65 ≤ c.toNat ∧ c.toNat ≤ 90 →
        (rot13Char c).toNat = 65 + (c.toNat - 65 + 13) % 26) ∧
    (∀ c : Char, ¬(97 ≤ c.toNat ∧ c.toNat ≤ 122) → ¬(65 ≤ c.toNat ∧ c.toNat ≤ 90) →
        rot13Char c = c) ∧
    rot13 "hello" = "uryyb" := by
  refine ⟨?_, ?_, ?_, ?_, by decide⟩
  · intro s
    show String.mk ((s.data.map rot13Char).map rot13Char) = s
    rw [List.map_map]
    have hcomp : rot13Char ∘ rot13Char = id := funext rot13Char_rot13Char
    rw [hcomp, List.map_id]
  · intro c hc
    rw [toNat_rot13Char]
    unfold rotCode
    rw [if_pos hc]
  · intro c hc
    rw [toNat_rot13Char]
    unfold rotCode
    rw [if_neg (by omega), if_pos hc]
  · intro c h1 h2
    have hf : rotCode c.toNat = c.toNat := by
      unfold rotCode
      rw [if_neg h1, if_neg h2]
    unfold rot13Char
    rw [hf, Char.ofNat_toNat]

theorem claim2_witness :
    (rot13Char 'h').toNat = 97 + ('h'.toNat - 97 + 13) % 26 ∧ rot13Char '!' = '!' :=
  ⟨claim2_rot13_involution.2.1 'h' (by decide),
   claim2_rot13_involution.2.2.2.1 '!' (by decide) (by decide)⟩

/-- Claim C3: every Unary catalog transform is total (the model functions are
total Lean functions by construction) and, given the empty string, returns a
category-appropriate empty result, never a failure. -/
theorem claim3_unary_transforms_on_empty :
    ∀ t : Transform, interp t "" = "" := by
  intro t
  cases t <;> decide

/-- Claim C4: each jwt transform returns an input lacking the required two
dot delimiters unchanged; on a well-formed three-part token it alters only
the targeted segment, leaves the other segments untouched, and re-joins
with a dot. -/
theorem claim4_jwt_graceful_degradation :
    (∀ s : String, s.data.count '.' < 2 →
        jwt_header_manipulation s = s ∧ jwt_payload_obfuscate s = s) ∧
    (∀ hs ps gs : String, '.' ∉ hs.data → '.' ∉ ps.data → '.' ∉ gs.data →
        jwt_header_manipulation (hs ++ "." ++ ps ++ "." ++ gs) =
          String.mk (alterHeaderModel hs.data) ++ "." ++ ps ++ "." ++ gs ∧
        jwt_payload_obfuscate (hs ++ "." ++ ps ++ "." ++ gs) =
          hs ++ "." ++ String.mk (alterPayloadModel ps.data) ++ "." ++ gs) := by
  constructor
  · intro s hcount
    have hl := splitOnDot_length s.data
    rcases e : splitOnDot s.data with _ | ⟨a, _ | ⟨b, _ | ⟨c, tl⟩⟩⟩
    · exact ⟨by simp [jwt_header_manipulation, e], by simp [jwt_payload_obfuscate, e]⟩
    · exact ⟨by simp [jwt_header_manipulation, e], by simp [jwt_payload_obfuscate, e]⟩
    · exact ⟨by simp [jwt_header_manipulation, e], by simp [jwt_payload_obfuscate, e]⟩
    · exfalso
      rw [e] at hl
      simp at hl
      omega
  · intro hs ps gs h1 h2 h3
    have hdata : (hs ++ "." ++ ps ++ "." ++ gs).data =
        hs.data ++ '.' :: (ps.data ++ '.' :: gs.data) := by
      simp [String.data_append]
    have hsplit : splitOnDot (hs ++ "." ++ ps ++ "." ++ gs).data =
        [hs.data, ps.data, gs.data] := by
      rw [hdata, splitOnDot_append _ _ h1, splitOnDot_append _ _ h2,
        splitOnDot_no_dot _ h3]
    constructor
    · apply string_eq_of_data_eq
      have hred : jwt_header_manipulation (hs ++ "." ++ ps ++ "." ++ gs) =
          String.mk (alterHeaderModel hs.data ++ '.' :: ps.data ++ '.' :: gs.data) := by
        simp only [jwt_header_manipulation, hsplit]
      rw [hred]
      simp [String.data_append]
    · apply string_eq_of_data_eq
      have hred : jwt_payload_obfuscate (hs ++ "." ++ ps ++ "." ++ gs) =
          String.mk (hs.data ++ '.' :: alterPayloadModel ps.data ++ '.' :: gs.data) := by
        simp only [jwt_payload_obfuscate, hsplit]
      rw [hred]
      simp [String.data_append]

theorem claim4_witness :
    jwt_header_manipulation "hello" = "hello" ∧
    jwt_payload_obfuscate ("abc" ++ "." ++ "def" ++ "." ++ "ghi") =
      "abc" ++ "." ++ String.mk (alterPayloadModel "def".data) ++ "." ++ "ghi" :=
  ⟨(claim4_jwt_graceful_degradation.1 "hello" (by decide)).1,
   (claim4_jwt_graceful_degradation.2 "abc" "def" "ghi"
     (by decide) (by decide) (by decide)).2⟩

/-- Claim C5: case_swap preserves the code-point count, lower-cases to the
same string as the input lower-cased, inverts the case of every alphabetic
code point and passes every non-alphabetic code point through unchanged. -/
theorem claim5_case_swap_properties :
    (∀ s : String, (case_swap s).length = s.length) ∧
    (∀ s : String, toLowerModel (case_swap s) = toLowerModel s) ∧
    (∀ c : Char, 65 ≤ c.toNat ∧ c.toNat ≤ 90 → (swapChar c).toNat = c.toNat + 32) ∧
    (∀ c : Char, 97 ≤ c.toNat ∧ c.toNat ≤ 122 → (swapChar c).toNat = c.toNat - 32) ∧
    (∀ c : Char, ¬(65 ≤ c.toNat ∧ c.toNat ≤ 90) → ¬(97 ≤ c.toNat ∧ c.toNat ≤ 122) →
        swapChar c = c) := by
  refine ⟨?_, ?_, ?_, ?_, ?_⟩
  · intro s
    show (String.mk (s.data.map swapChar)).length = s.length
    rw [String.length_mk, List.length_map]
    rfl
  · intro s
    show String.mk ((s.data.map swapChar).map Char.toLower) =
      String.mk (s.data.map Char.toLower)
    rw [List.map_map]
    have hcomp : Char.toLower ∘ swapChar = Char.toLower := funext toLower_swapChar
    rw [hcomp]
  · intro c hc
    rw [toNat_swapChar]
    unfold swapCode
    rw [if_pos hc]
  · intro c hc
    rw [toNat_swapChar]
    unfold swapCode
    rw [if_neg (by omega), if_pos hc]
  · intro c h1 h2
    have hf : swapCode c.toNat = c.toNat := by
      unfold swapCode
      rw [if_neg h1, if_neg h2]
    unfold swapChar
    rw [hf, Char.ofNat_toNat]

theorem claim5_witness :
    (swapChar 'A').toNat = 'A'.toNat + 32 ∧ (swapChar 'a').toNat = 'a'.toNat - 32 ∧
    swapChar '1' = '1' :=
  ⟨claim5_case_swap_properties.2.2.1 'A' (by decide),
   claim5_case_swap_properties.2.2.2.1 'a' (by decide),
   claim5_case_swap_properties.2.2.2.2 '1' (by decide) (by decide)⟩

/-- Claim C6: base64_encode is standard RFC 4648 Base64 with padding,
computed byte-exactly on the UTF-8 encoding of the input, so that a standard
Base64 decoder round-trips it; in particular on "hello" it yields
"aGVsbG8=". -/
theorem claim6_base64_rfc4648 :
    (∀ s : String, b64DecodeChars (base64_encode s).data = some (strBytes s)) ∧
    base64_encode "hello" = "aGVsbG8=" := by
  refine ⟨?_, by decide⟩
  intro s
  exact b64_roundtrip (strBytes s) (strBytes_lt s)

/-- Claim C7: url_encode percent-encodes exactly the characters outside the
unreserved set A-Za-z0-9-_.~ and leaves unreserved characters unchanged,
with space encoding to %20; in particular url_encode("hello world") is
"hello%20world", containing "%20" and the substring "hello". -/
theorem claim7_url_encode_properties :
    (∀ s : String, (∀ c ∈ s.data, unreservedChar c = true) → url_encode s = s) ∧
    (∀ c : Char, unreservedChar c = false → (urlEncodeChar c).head? = some '%') ∧
    url_encode " " = "%20" ∧
    url_encode "hello world" = "hello%20world" ∧
    (∃ l r : List Char, (url_encode "hello world").data = l ++ "%20".data ++ r) ∧
    (∃ l r : List Char, (url_encode "hello world").data = l ++ "hello".data ++ r) := by
  refine ⟨?_, ?_, by decide, by decide,
    ⟨"hello".data, "world".data, by decide⟩, ⟨[], "%20world".data, by decide⟩⟩
  · intro s h
    show String.mk (s.data.flatMap urlEncodeChar) = s
    rw [flatMap_unreserved s.data h]
  · intro c h
    unfold urlEncodeChar
    rw [if_neg (by simp [h])]
    simp only [utf8Bytes]
    split_ifs <;> rfl

theorem claim7_witness :
    url_encode "abc" = "abc" ∧ (urlEncodeChar ' ').head? = some '%' :=
  ⟨claim7_url_encode_properties.1 "abc" (by decide),
   claim7_url_encode_properties.2.1 ' ' (by decide)⟩

/-- Claim C8: leetspeak applies a fixed character substitution table to every
matching character of the input, case-insensitively, and passes every
unmapped character through unchanged; the same input always maps through the
same table, with leetspeak("password") as documented. -/
theorem claim8_leetspeak_fixed_table :
    leetspeak "password" = "p@55w0rd" ∧
    leetspeak "PASSWORD" = "P@55W0RD" ∧
    (∀ c : Char, c.toLower ∈ ['a', 'e', 'i', 'o', 's'] →
        leetChar c = leetChar c.toLower) ∧
    (∀ c : Char, c.toLower ∉ ['a', 'e', 'i', 'o', 's'] → leetChar c = c) := by
  refine ⟨by decide, by decide, ?_, ?_⟩
  · intro c hc
    simp only [List.mem_cons, List.not_mem_nil, or_false] at hc
    rcases hc with h | h | h | h | h <;> simp [leetChar, h]
  · intro c hc
    simp only [List.mem_cons, List.not_mem_nil, or_false, not_or] at hc
    simp [leetChar, hc]

theorem claim8_witness :
    leetChar 'A' = leetChar 'A'.toLower ∧ leetChar 'x' = 'x' :=
  ⟨claim8_leetspeak_fixed_table.2.2.1 'A' (by decide),
   claim8_leetspeak_fixed_table.2.2.2 'x' (by decide)⟩

/-- Claim C9: constructing a pipeline applies no transformation, and calling
build immediately after construction is safe and returns the initial string
unchanged, with an empty recorded step sequence. -/
theorem claim9_build_after_construct :
    ∀ s : String, (TransformBuilder.construct s).build = s ∧
      (TransformBuilder.construct s).steps = [] ∧
      (TransformBuilder.construct s).current = s :=
  fun _ => ⟨rfl, rfl, rfl⟩

theorem hexPairs_length (l : List Nat) :
    (l.flatMap fun b => [hexDigitLower (b / 16), hexDigitLower (b % 16)]).length =
      2 * l.length := by
  induction l with
  | nil => rfl
  | cons b bs ih =>
    rw [List.flatMap_cons, List.length_append, ih]
    simp
    omega

/-- Claim C10: hex_encode returns the lowercase hexadecimal encoding of the
UTF-8 bytes of the input, two hex digits per byte, so the output length is
exactly twice the UTF-8 byte length; in particular hex_encode("hi") is
"6869". -/
theorem claim10_hex_encode :
    hex_encode "hi" = "6869" ∧
    (∀ s : String, (hex_encode s).length = 2 * (strBytes s).length) ∧
    (∀ s : String, ∀ c ∈ (hex_encode s).data, c ∈ "0123456789abcdef".data) := by
  refine ⟨by decide, ?_, ?_⟩
  · intro s
    show (String.mk ((strBytes s).flatMap fun b =>
      [hexDigitLower (b / 16), hexDigitLower (b % 16)])).length = 2 * (strBytes s).length
    rw [String.length_mk]
    exact hexPairs_length (strBytes s)
  · intro s c hc
    have hc2 : c ∈ (strBytes s).flatMap fun b =>
        [hexDigitLower (b / 16), hexDigitLower (b % 16)] := hc
    rw [List.mem_flatMap] at hc2
    obtain ⟨b, hb, hcb⟩ := hc2
    have hblt := strBytes_lt s b hb
    simp only [List.mem_cons, List.not_mem_nil, or_false] at hcb
    rcases hcb with rfl | rfl
    · exact hexDigitLower_mem _ (by omega)
    · exact hexDigitLower_mem _ (by omega)

theorem claim10_witness :
    '6' ∈ "0123456789abcdef".data :=
  claim10_hex_encode.2.2 "hi" '6' (by decide)

end Redstr
